import Mathlib

/-!
Shallow embedding of the fabric dependency-graph coordination library:
the topology store (node/edge storage), the per-edge signaling maps,
cycle detection, virtual-node lifecycle, and the coverage / totality
verification passes, together with theorems settling the specified
properties of these operations.

Go channels are modelled as conduit tokens (naturals) allocated from a
per-graph counter; each node's mutable signaling maps are carried in a
per-node-id table inside the graph state, since Go mutates them through
the node objects while the topology key stays fixed.
-/

namespace Fabric

/-- NodeType mirrors the Go enumeration of dependency-graph node kinds. -/
inductive NodeType
  | UINode
  | TemporalNode
  | VirtualTemporalNode
  | VUINode
  | VDGNode
  | Unknown
deriving DecidableEq, Repr

/-- A section (a coordinating node's view of the host structure): the host
data-structure node and edge lists it claims.  Host nodes are identified by
their integer id; host edges by their (source id, destination id) pair. -/
structure Sect where
  nodes : List Nat
  edges : List (Nat × Nat)
deriving DecidableEq, Repr

/-- A dependency-graph node value, modelling the Go DGNode interface value
used as a topology key.  The field ref models the address components of the
underlying Go value: two values that agree on everything but ref are
distinct map keys yet deep-value equal (reflect.DeepEqual).  The field
comparable' models whether the concrete Go type is usable as a map key,
dependencies models the node's own cached ListDependencies() ids, and sec
models GetSection() for UI nodes. -/
structure DGNode where
  ref : Nat
  id : Nat
  ntype : NodeType
  isUI : Bool
  virtual : Bool
  comparable' : Bool
  dependencies : List Nat
  sec : Sect
deriving DecidableEq, Repr

/-- reflect.DeepEqual on two node values: equality of all deep content,
ignoring the address component ref. -/
def deepEqual (n m : DGNode) : Bool :=
  n.id == m.id && n.ntype == m.ntype && n.isUI == m.isUI &&
  n.virtual == m.virtual && n.comparable' == m.comparable' &&
  n.dependencies == m.dependencies && n.sec == m.sec

/-- The mutable signaling state a node owns: its SignalingMap (outbound,
keyed by dependent id) and its SignalsMap (inbound, keyed by dependency
id), each holding conduit tokens. -/
structure NodeState where
  signalers : List (Nat × Nat)
  signals : List (Nat × Nat)
deriving DecidableEq, Repr

/-- The graph: the topology Top (association list mirroring the Go map
from node to its dependency list, in iteration order), the host structure
DS, the per-node-id signaling states, and the next fresh conduit token. -/
structure Graph where
  Top : List (DGNode × List DGNode)
  DS : Sect
  sig : List (Nat × NodeState)
  fresh : Nat
deriving DecidableEq, Repr

/-- Modelled from the spec: the repository snapshot does not include the
membership helper contains(l, n) over node slices; its uses (duplicate
check, seen/done membership) are value membership of a node in a slice. -/
def contains (l : List DGNode) (n : DGNode) : Bool :=
  l.contains n

/-- Modelled from the spec: the repository snapshot does not include
containsDGNode over dependency-pointer slices; its uses are membership of
the pointed-to node value in the slice. -/
def containsDGNode (l : List DGNode) (n : DGNode) : Bool :=
  l.contains n

/-- Modelled from the spec: the repository snapshot does not include
containsNode over host-structure node lists; membership of a host node. -/
def containsNode (l : List Nat) (v : Nat) : Bool :=
  l.contains v

/-- Modelled from the spec: the repository snapshot does not include
containsEdge over host-structure edge lists; membership of a host edge. -/
def containsEdge (l : List (Nat × Nat)) (e : Nat × Nat) : Bool :=
  l.contains e

/-- Insert or overwrite a key in a signaling map (Go map assignment). -/
def mapSet (m : List (Nat × Nat)) (k v : Nat) : List (Nat × Nat) :=
  match m with
  | [] => [(k, v)]
  | (k', v') :: rest => if k' = k then (k, v) :: rest else (k', v') :: mapSet rest k v

/-- Delete a key from a signaling map (Go delete). -/
def mapDelete (m : List (Nat × Nat)) (k : Nat) : List (Nat × Nat) :=
  m.filter (fun p => p.1 != k)

/-- Insert or overwrite a node id's signaling state in the state table. -/
def sigSet (s : List (Nat × NodeState)) (k : Nat) (v : NodeState) : List (Nat × NodeState) :=
  match s with
  | [] => [(k, v)]
  | (k', v') :: rest => if k' = k then (k, v) :: rest else (k', v') :: sigSet rest k v

/-- Read a node id's signaling state (a node with no recorded state has
empty maps). -/
def sigGet (s : List (Nat × NodeState)) (k : Nat) : NodeState :=
  (s.lookup k).getD ⟨[], []⟩

/-- The keys of the topology, in iteration order. -/
def topKeys (top : List (DGNode × List DGNode)) : List DGNode :=
  top.map Prod.fst

/-- Go map read g.Top[n] (missing key reads as the empty list). -/
def topApply (top : List (DGNode × List DGNode)) (n : DGNode) : List DGNode :=
  (top.lookup n).getD []

/-- The structural errors the topology operations report, one per distinct
error message in the source. -/
inductive FabricError
  | notComparable
  | duplicateNode
  | notUINode
  | notVirtual
  | hasDependencies
deriving DecidableEq, Repr

/-- Graph.AddRealNode: reject a non-comparable node value, reject a node
value already present as a key, otherwise register it with an empty
dependency list.  Returns the Go (error, receiver-after-call) pair. -/
def AddRealNode (g : Graph) (node : DGNode) : Option FabricError × Graph :=
  if !node.comparable' then
    (some .notComparable, g)
  else if !(topKeys g.Top).contains node then
    (none, { g with Top := g.Top ++ [(node, [])] })
  else
    (some .duplicateNode, g)

/-- Graph.AddVUI: reject a non-virtual node, reject a node already present,
otherwise register it with an empty dependency list. -/
def AddVUI (g : Graph) (node : DGNode) : Option FabricError × Graph :=
  if !node.virtual then
    (some .notVirtual, g)
  else if !contains (topKeys g.Top) node then
    (none, { g with Top := g.Top ++ [(node, [])] })
  else
    (some .duplicateNode, g)

/-- One iteration of the AddRealEdge range loop over Top.  Note that the
source's k = append(k, dest) writes only the loop-local copy of the slice
header, so the topology entry itself is never extended; only the signaling
maps of destination and source are updated with the fresh conduit. -/
def AddRealEdgeStep (source : Nat) (dest : DGNode) (s : Graph) (ik : DGNode × List DGNode) :
    Graph :=
  if ik.1.id = source then
    if !containsDGNode ik.2 dest then
      let c := s.fresh
      let dSt := sigGet s.sig dest.id
      let s1 : Graph :=
        { s with
          sig := sigSet s.sig dest.id { dSt with signalers := mapSet dSt.signalers ik.1.id c },
          fresh := s.fresh + 1 }
      let iSt := sigGet s1.sig ik.1.id
      match (sigGet s1.sig dest.id).signalers.lookup ik.1.id with
      | some v =>
          { s1 with sig := sigSet s1.sig ik.1.id { iSt with signals := mapSet iSt.signals dest.id v } }
      | none => { s1 with sig := sigSet s1.sig ik.1.id iSt }
    else s
  else s

/-- Graph.AddRealEdge: for the (unique, if node ids are unique) topology
entry whose key has the given source id, when the destination is not
already in its dependency list, allocate a fresh conduit, install it in the
destination's outbound map under the source id and in the source's inbound
map under the destination id.  The function has no error result. -/
def AddRealEdge (g : Graph) (source : Nat) (dest : DGNode) : Graph :=
  g.Top.foldl (AddRealEdgeStep source dest) g

/-- One iteration of the RemoveVUI cleanup loop: a topology entry whose
dependency list contains the removed node has the removed node's id deleted
from its inbound signals map. -/
def RemoveVUIStep (np : DGNode) (acc : List (Nat × NodeState)) (nl : DGNode × List DGNode) :
    List (Nat × NodeState) :=
  if containsDGNode nl.2 np then
    let st := sigGet acc nl.1.id
    sigSet acc nl.1.id { st with signals := mapDelete st.signals np.id }
  else acc

/-- Graph.RemoveVUI: reject a node that is not a UI node, reject a UI node
that is not virtual, reject a node whose own dependency list is non-empty;
otherwise delete the removed node's id from the inbound map of every node
whose topology dependency list contains it, and remove it as a key. -/
def RemoveVUI (g : Graph) (np : DGNode) : Option FabricError × Graph :=
  if !np.isUI then
    (some .notUINode, g)
  else if !np.virtual then
    (some .notVirtual, g)
  else if np.dependencies.length != 0 then
    (some .hasDependencies, g)
  else
    let sig' := g.Top.foldl (RemoveVUIStep np) g.sig
    (none, { g with Top := g.Top.filter (fun p => p.1 != np), sig := sig' })

/-- Graph.Dependencies: the dependency list recorded for the node in Top
(a node that is not a key has no dependencies). -/
def Dependencies (g : Graph) (np : DGNode) : List DGNode :=
  topApply g.Top np

/-- The inner loop of cycleDfs over the adjacency list: skip a neighbour
already fully processed, report a cycle on a neighbour already on the
current path, otherwise recurse (through the supplied recursive call),
discarding - as the source does, by shadowing - the done list a
false-returning recursive call produces. -/
def cycleDfsLoop (dfsf : DGNode → List DGNode → List DGNode → Bool × List DGNode)
    (seen' : List DGNode) : List DGNode → List DGNode → Option (Bool × List DGNode)
  | [], _ => none
  | v :: rest, done =>
    if contains done v then cycleDfsLoop dfsf seen' rest done
    else if contains seen' v then some (true, done)
    else
      match dfsf v seen' done with
      | (true, d) => some (true, d)
      | (false, _) => cycleDfsLoop dfsf seen' rest done

/-- Graph.cycleDfs: recursive depth-first search used for cycle detection.
The fuel argument bounds the recursion depth; CycleDetect supplies enough
fuel that it is never exhausted (the current path has pairwise distinct
nodes drawn from the graph). -/
def cycleDfs (g : Graph) : Nat → DGNode → List DGNode → List DGNode → Bool × List DGNode
  | 0, _, _, done => (false, done)
  | fuel + 1, start, seen, done =>
    let seen' := seen ++ [start]
    match cycleDfsLoop (cycleDfs g fuel) seen' (topApply g.Top start) done with
    | some r => r
    | none => (false, done ++ [start])

/-- All node values the depth-first search can ever reach: the topology
keys and every member of a dependency list. -/
def nodeUniverse (g : Graph) : List DGNode :=
  topKeys g.Top ++ (g.Top.map Prod.snd).flatten

/-- Fuel that cycle detection can never exhaust: one more than the number
of node values in the graph. -/
def dfsFuel (g : Graph) : Nat :=
  (nodeUniverse g).length + 1

/-- The outer scan of CycleDetect over the topology keys, accumulating
the fully-processed list returned by false-returning root searches. -/
def CycleDetectGo (g : Graph) : List DGNode → List DGNode → Bool
  | [], _ => false
  | i :: rest, done =>
    if contains done i then CycleDetectGo g rest done
    else
      match cycleDfs g (dfsFuel g) i [] done with
      | (true, _) => true
      | (false, d) => CycleDetectGo g rest d

/-- Graph.CycleDetect: scan every topology key not yet fully processed and
run a depth-first search from it. -/
def CycleDetect (g : Graph) : Bool :=
  CycleDetectGo g (topKeys g.Top) []

/-- Instrumented twin of cycleDfsLoop that also records, in order, every
node the search is invoked on (the visit trace). -/
def cycleDfsLoopV (dfsf : DGNode → List DGNode → List DGNode → (Bool × List DGNode) × List DGNode)
    (seen' : List DGNode) :
    List DGNode → List DGNode → Option (Bool × List DGNode) × List DGNode
  | [], _ => (none, [])
  | v :: rest, done =>
    if contains done v then cycleDfsLoopV dfsf seen' rest done
    else if contains seen' v then (some (true, done), [])
    else
      match dfsf v seen' done with
      | ((true, d), vs) => (some (true, d), vs)
      | ((false, _), vs) =>
        let rv := cycleDfsLoopV dfsf seen' rest done
        (rv.1, vs ++ rv.2)

/-- Instrumented twin of cycleDfs: same result, plus the visit trace. -/
def cycleDfsV (g : Graph) : Nat → DGNode → List DGNode → List DGNode →
    (Bool × List DGNode) × List DGNode
  | 0, start, _, done => ((false, done), [start])
  | fuel + 1, start, seen, done =>
    let seen' := seen ++ [start]
    match cycleDfsLoopV (cycleDfsV g fuel) seen' (topApply g.Top start) done with
    | (some r, vs) => (r, start :: vs)
    | (none, vs) => ((false, done ++ [start]), start :: vs)

/-- Instrumented twin of the CycleDetect outer scan. -/
def CycleDetectGoV (g : Graph) : List DGNode → List DGNode → Bool × List DGNode
  | [], _ => (false, [])
  | i :: rest, done =>
    if contains done i then CycleDetectGoV g rest done
    else
      match cycleDfsV g (dfsFuel g) i [] done with
      | ((true, _), vs) => (true, vs)
      | ((false, d), vs) =>
        let rv := CycleDetectGoV g rest d
        (rv.1, vs ++ rv.2)

/-- The full visit trace of one CycleDetect scan: each entry is one
invocation of cycleDfs on that node. -/
def CycleDetectVisits (g : Graph) : List DGNode :=
  (CycleDetectGoV g (topKeys g.Top) []).2

/-- The dependency-edge relation of the topology: x depends on y. -/
def edgeRel (g : Graph) (x y : DGNode) : Prop :=
  y ∈ topApply g.Top x

/-- A directed cycle in the dependency relation: a non-empty closed walk. -/
def HasCycle (g : Graph) : Prop :=
  ∃ a l, List.Chain (edgeRel g) a (l ++ [a])

/-- The UI-kind keys of the topology (GetType() = UINode), in order. -/
def uiNodes (g : Graph) : List DGNode :=
  (topKeys g.Top).filter (fun v => v.ntype == NodeType.UINode)

/-- Inner loop of TotalityUnique: compare the outer node n (at outer index
i) against every node of the full UI slice (index j counting up), skipping
nodes already in done and the j = i position; deep-value equality of a
compared pair reports failure. -/
def tuInner (n : DGNode) (i : Nat) : Nat → List DGNode → List DGNode → Bool
  | _, [], _ => true
  | j, n2 :: rest, done =>
    if !contains done n2 then
      if j ≠ i then
        if deepEqual n n2 then false
        else tuInner n i (j + 1) rest done
      else tuInner n i (j + 1) rest done
    else tuInner n i (j + 1) rest done

/-- Outer loop of TotalityUnique over the UI slice, appending each fully
compared node to done. -/
def tuOuter (uiAll : List DGNode) : Nat → List DGNode → List DGNode → Bool
  | _, [], _ => true
  | i, n :: rest, done =>
    if tuInner n i 0 uiAll done then tuOuter uiAll (i + 1) rest (done ++ [n])
    else false

/-- Graph.TotalityUnique: no two UI nodes of the topology may be
deep-value equal. -/
def TotalityUnique (g : Graph) : Bool :=
  tuOuter (uiNodes g) 0 (uiNodes g) []

/-- Inner check of Covered for one host node: is it listed by at least one
UI node's section? -/
def nodeCoveredBy (v : Nat) : List DGNode → Bool
  | [] => false
  | u :: rest => if containsNode u.sec.nodes v then true else nodeCoveredBy v rest

/-- First loop of Covered over the host structure's nodes. -/
def coveredNodesLoop (uis : List DGNode) : List Nat → Bool
  | [] => true
  | v :: rest => if nodeCoveredBy v uis then coveredNodesLoop uis rest else false

/-- Inner check of Covered for one host edge. -/
def edgeCoveredBy (e : Nat × Nat) : List DGNode → Bool
  | [] => false
  | u :: rest => if containsEdge u.sec.edges e then true else edgeCoveredBy e rest

/-- Second loop of Covered over the host structure's edges. -/
def coveredEdgesLoop (uis : List DGNode) : List (Nat × Nat) → Bool
  | [] => true
  | e :: rest => if edgeCoveredBy e uis then coveredEdgesLoop uis rest else false

/-- Graph.Covered: every host-structure node and edge must be listed by at
least one UI node's section. -/
def Covered (g : Graph) : Bool :=
  if coveredNodesLoop (uiNodes g) g.DS.nodes then coveredEdgesLoop (uiNodes g) g.DS.edges
  else false

/-! Concrete fixtures used by the witnesses and counterexamples. -/

/-- An empty section / host structure. -/
def emptySec : Sect := ⟨[], []⟩

/-- The empty graph. -/
def gEmpty : Graph := ⟨[], emptySec, [], 0⟩

/-- A plain UI node with id 1. -/
def nA : DGNode := ⟨0, 1, .UINode, true, false, true, [], emptySec⟩

/-- A plain UI node with id 2. -/
def nB : DGNode := ⟨1, 2, .UINode, true, false, true, [], emptySec⟩

/-- A virtual UI node with id 2 and an empty own dependency list. -/
def nV : DGNode := ⟨2, 2, .VUINode, true, true, true, [], emptySec⟩

/-- A temporal (non-UI) node. -/
def nTmp : DGNode := ⟨3, 4, .TemporalNode, false, false, true, [], emptySec⟩

/-- The two-node graph holding nA and nB, built by AddRealNode. -/
def gAB : Graph := (AddRealNode (AddRealNode gEmpty nA).2 nB).2

/-- gAB after AddRealEdge(1, nB): the attempt to make nA depend on nB. -/
def gAB1 : Graph := AddRealEdge gAB 1 nB

/-- gAB1 after AddRealEdge(2, nA): the attempt to make nB depend on nA,
which the specification expects to fail with CycleDetected. -/
def gAB2 : Graph := AddRealEdge gAB1 2 nA

/-- The graph holding nA and the virtual node nV, built by AddRealNode and
AddVUI, after AddRealEdge(1, nV). -/
def gAV : Graph := AddRealEdge (AddVUI (AddRealNode gEmpty nA).2 nV).2 1 nV

/-- A topology with one dependency edge nA -> nB, written directly (the
store never holds an edge produced through AddRealEdge). -/
def gChain : Graph := ⟨[(nA, [nB]), (nB, [])], emptySec, [], 0⟩

/-- A UI node with id 7. -/
def nA7 : DGNode := ⟨0, 7, .UINode, true, false, true, [], emptySec⟩

/-- A distinct UI node value that also has id 7 (same deep content as nA7,
different address component). -/
def nB7 : DGNode := ⟨1, 7, .UINode, true, false, true, [], emptySec⟩

/-- A topology holding the two distinct, deep-value-equal UI nodes. -/
def gU7 : Graph := ⟨[(nA7, []), (nB7, [])], emptySec, [], 0⟩

/-- A UI node whose section lists host nodes 1 and 2. -/
def nCov : DGNode := ⟨0, 1, .UINode, true, false, true, [], ⟨[1, 2], []⟩⟩

/-- A graph whose host structure has nodes 1, 2, 3 while the only section
lists just 1 and 2: host node 3 is uncovered. -/
def gCov : Graph := ⟨[(nCov, [])], ⟨[1, 2, 3], []⟩, [], 0⟩

/-- The one-node graph holding nA, built by AddRealNode. -/
def gA : Graph := (AddRealNode gEmpty nA).2

/-! Theorems settling the claims. -/

/-- C1: the code diverges from the claim.  After inserting nodes 1 and 2,
AddRealEdge(1, nB) followed by AddRealEdge(2, nA) cannot fail with
CycleDetected: AddRealEdge has no error result and never runs CycleDetect.
Moreover neither call ever records its edge in Top (the appended slice is
a loop-local copy), so the topology after both calls equals the topology
before any of them, no cycle ever forms, and the second call still goes on
to install its conduit (token 1) instead of rolling anything back. -/
theorem c1_second_addRealEdge_no_failure_no_edge :
    gAB2.Top = gAB.Top ∧
    CycleDetect gAB2 = false ∧
    (sigGet gAB2.sig 2).signals.lookup 1 = some 1 ∧
    (sigGet gAB2.sig 1).signalers.lookup 2 = some 1 := by
  refine ⟨rfl, rfl, rfl, rfl⟩

/-- C3: the code violates the invariant.  After AddRealEdge(1, nB) the
fresh conduit (token 0) is reachable from both endpoints' maps - nB's
outbound map under key 1 and nA's inbound map under key 2 - yet the
topology holds no edge at all: Dependencies(nA) is empty, so a conduit
exists with no corresponding edge. -/
theorem c3_conduit_without_edge :
    (sigGet gAB1.sig 2).signalers.lookup 1 = some 0 ∧
    (sigGet gAB1.sig 1).signals.lookup 2 = some 0 ∧
    Dependencies gAB1 nA = [] ∧
    Dependencies gAB1 nB = [] := by
  refine ⟨rfl, rfl, by decide, by decide⟩

/-- C6: the code diverges from the claim.  nA was wired to the virtual
node nV by AddRealEdge(1, nV), which installed conduit 0 in nA's inbound
map under key 2 but never recorded the edge in Top; RemoveVUI(nV) then
succeeds (nV's own dependency list is empty), removes nV from the
topology, but its cleanup loop only visits nodes whose Top dependency list
contains nV - none - so nA's inbound map still holds the entry keyed by
the removed node's id 2. -/
theorem c6_removeVUI_leaves_dangling_inbound :
    (RemoveVUI gAV nV).1 = none ∧
    (topKeys (RemoveVUI gAV nV).2.Top).contains nV = false ∧
    (sigGet (RemoveVUI gAV nV).2.sig 1).signals.lookup 2 = some 0 := by
  refine ⟨rfl, by decide, rfl⟩

/-- C4 counterexample: on the acyclic two-node chain nA -> nB the full
scan visits nB twice (the fully-processed list built inside a recursive
call is discarded by the shadowed assignment, so nB is not marked done
when the outer loop reaches it), refuting the claim that each node is
visited exactly once across the scan. -/
theorem c4_node_visited_twice :
    CycleDetectVisits gChain = [nA, nB, nB] ∧
    (CycleDetectVisits gChain).count nB = 2 ∧
    CycleDetect gChain = false := by
  refine ⟨by decide, by decide, rfl⟩

/-- C5 counterexample: RemoveVUI on a temporal (non-UI, hence not
virtual-kind) node fails with the distinct NotAUINode error, not with
NotVirtual as the claim states. -/
theorem c5_non_ui_error_not_notVirtual :
    (RemoveVUI gEmpty nTmp).1 = some FabricError.notUINode ∧
    some FabricError.notUINode ≠ some FabricError.notVirtual ∧
    nTmp.isUI = false := by
  refine ⟨rfl, by decide, rfl⟩

/-- C5 (amended): RemoveVUI fails with NotAUINode when the node does not
implement the UI interface, with NotVirtual when it is a UI node that is
not virtual, and with HasDependencies when it is a virtual UI node whose
own dependency list is non-empty; every failing call returns the receiver
exactly as it was, touching neither the topology nor any signaling map. -/
theorem c5_removeVUI_failure_spec (g : Graph) (np : DGNode) (e : FabricError)
    (h : (RemoveVUI g np).1 = some e) :
    (RemoveVUI g np).2 = g ∧
    (e = FabricError.notUINode ↔ np.isUI = false) ∧
    (e = FabricError.notVirtual ↔ (np.isUI = true ∧ np.virtual = false)) ∧
    (e = FabricError.hasDependencies ↔
      (np.isUI = true ∧ np.virtual = true ∧ np.dependencies ≠ [])) := by
  unfold RemoveVUI at h ⊢
  by_cases hui : np.isUI
  · by_cases hv : np.virtual
    · by_cases hd : np.dependencies.length = 0
      · simp [hui, hv, hd] at h
      · have hd' : np.dependencies ≠ [] := by
          intro hnil
          exact hd (by simp [hnil])
        simp [hui, hv, hd] at h
        subst h
        simp [hui, hv, hd, hd']
    · simp [hui, hv] at h
      subst h
      simp [hui, hv]
  · simp [hui] at h
    subst h
    simp [hui]

/-- C5 witness: the amended failure specification applied to the concrete
temporal node on the empty graph. -/
theorem c5_witness :
    (RemoveVUI gEmpty nTmp).2 = gEmpty ∧
    (FabricError.notUINode = FabricError.notUINode ↔ nTmp.isUI = false) :=
  ⟨(c5_removeVUI_failure_spec gEmpty nTmp FabricError.notUINode rfl).1,
   (c5_removeVUI_failure_spec gEmpty nTmp FabricError.notUINode rfl).2.1⟩

/-- C7 counterexample: nB7 is a node value distinct from nA7 whose ID()
equals nA7's id 7, yet inserting it after nA7 succeeds (no error): the
duplicate check compares map keys (whole node values), never identifiers,
so the claimed DuplicateNode failure does not occur. -/
theorem c7_duplicate_id_accepted :
    nB7 ≠ nA7 ∧
    nB7.id = nA7.id ∧
    (AddRealNode (AddRealNode gEmpty nA7).2 nB7).1 = none := by
  refine ⟨by decide, rfl, rfl⟩

/-- C7 (amended): AddRealNode fails when the node's concrete value is not
usable as a map key, fails with DuplicateNode when the very same node
value is already a key of the topology, and otherwise registers the node
with an empty dependency list; a distinct node value whose identifier
collides with a present node's identifier is accepted, since only key
equality is checked. -/
theorem c7_addRealNode_spec (g : Graph) (node : DGNode) :
    (node.comparable' = false → AddRealNode g node = (some FabricError.notComparable, g)) ∧
    (node.comparable' = true → node ∈ topKeys g.Top →
      AddRealNode g node = (some FabricError.duplicateNode, g)) ∧
    (node.comparable' = true → node ∉ topKeys g.Top →
      AddRealNode g node = (none, { g with Top := g.Top ++ [(node, [])] })) := by
  refine ⟨fun hc => ?_, fun hc hm => ?_, fun hc hm => ?_⟩
  · simp [AddRealNode, hc]
  · simp [AddRealNode, hc]
    exact hm
  · have : (topKeys g.Top).contains node = false := by
      simp
      exact hm
    simp [AddRealNode, hc, this]
    exact hm

/-- C7 witness: the three branches of the AddRealNode specification at
concrete inputs - a non-comparable node, re-inserting nA into the graph
already holding it, and the first insertion of nA into the empty graph. -/
theorem c7_witness :
    AddRealNode gA ⟨9, 9, .UINode, true, false, false, [], emptySec⟩ =
      (some FabricError.notComparable, gA) ∧
    AddRealNode gA nA = (some FabricError.duplicateNode, gA) ∧
    AddRealNode gEmpty nA = (none, { gEmpty with Top := gEmpty.Top ++ [(nA, [])] }) :=
  ⟨(c7_addRealNode_spec gA ⟨9, 9, .UINode, true, false, false, [], emptySec⟩).1 rfl,
   (c7_addRealNode_spec gA nA).2.1 rfl (by decide),
   (c7_addRealNode_spec gEmpty nA).2.2 rfl (by decide)⟩

/-- C10 counterexample: with node nA (id 1) present, AddRealEdge(1, nA)
is not rejected - there is no error result and no SelfDependency check -
and nA's signaling maps do change: the call installs conduit 0 into nA's
outbound map and inbound map under its own key 1. -/
theorem c10_self_edge_not_rejected :
    (sigGet (AddRealEdge gA 1 nA).sig 1).signalers.lookup 1 = some 0 ∧
    (sigGet (AddRealEdge gA 1 nA).sig 1).signals.lookup 1 = some 0 ∧
    (sigGet gA.sig 1).signalers.lookup 1 = none ∧
    (sigGet gA.sig 1).signals.lookup 1 = none := by
  refine ⟨rfl, rfl, rfl, rfl⟩

/-- A host node is covered exactly when some UI node's section lists it. -/
theorem nodeCoveredBy_iff (v : Nat) (uis : List DGNode) :
    nodeCoveredBy v uis = true ↔ ∃ u ∈ uis, v ∈ u.sec.nodes := by
  induction uis with
  | nil => simp [nodeCoveredBy]
  | cons u rest ih =>
    by_cases hc : containsNode u.sec.nodes v
    · have hv : v ∈ u.sec.nodes := by
        have := hc
        simp [containsNode] at this
        exact this
      simp [nodeCoveredBy, hc, hv]
    · have hv : v ∉ u.sec.nodes := by
        intro hmem
        exact hc (by simp [containsNode]; exact hmem)
      simp [nodeCoveredBy, hc, ih, hv]

/-- The node loop of Covered succeeds exactly when every host node is
covered. -/
theorem coveredNodesLoop_iff (uis : List DGNode) (ns : List Nat) :
    coveredNodesLoop uis ns = true ↔ ∀ v ∈ ns, nodeCoveredBy v uis = true := by
  induction ns with
  | nil => simp [coveredNodesLoop]
  | cons v rest ih =>
    by_cases hb : nodeCoveredBy v uis
    · simp [coveredNodesLoop, hb, ih]
    · simp [coveredNodesLoop, hb]

/-- A host edge is covered exactly when some UI node's section lists it. -/
theorem edgeCoveredBy_iff (e : Nat × Nat) (uis : List DGNode) :
    edgeCoveredBy e uis = true ↔ ∃ u ∈ uis, e ∈ u.sec.edges := by
  induction uis with
  | nil => simp [edgeCoveredBy]
  | cons u rest ih =>
    by_cases hc : containsEdge u.sec.edges e
    · have hv : e ∈ u.sec.edges := by
        have := hc
        simp [containsEdge] at this
        exact this
      simp [edgeCoveredBy, hc, hv]
    · have hv : e ∉ u.sec.edges := by
        intro hmem
        exact hc (by simp [containsEdge]; exact hmem)
      simp [edgeCoveredBy, hc, ih, hv]

/-- The edge loop of Covered succeeds exactly when every host edge is
covered. -/
theorem coveredEdgesLoop_iff (uis : List DGNode) (es : List (Nat × Nat)) :
    coveredEdgesLoop uis es = true ↔ ∀ e ∈ es, edgeCoveredBy e uis = true := by
  induction es with
  | nil => simp [coveredEdgesLoop]
  | cons e rest ih =>
    by_cases hb : edgeCoveredBy e uis
    · simp [coveredEdgesLoop, hb, ih]
    · simp [coveredEdgesLoop, hb]

/-- C9: Covered returns true exactly when every node and every edge of the
host structure appears in at least one UI node's section; in particular it
returns false whenever some host node or host edge is listed by no
section. -/
theorem c9_covered_iff (g : Graph) :
    Covered g = true ↔
      ((∀ v ∈ g.DS.nodes, ∃ u ∈ uiNodes g, v ∈ u.sec.nodes) ∧
       (∀ e ∈ g.DS.edges, ∃ u ∈ uiNodes g, e ∈ u.sec.edges)) := by
  unfold Covered
  by_cases hn : coveredNodesLoop (uiNodes g) g.DS.nodes
  · simp only [hn, if_true]
    rw [coveredEdgesLoop_iff]
    constructor
    · intro h
      refine ⟨?_, ?_⟩
      · intro v hv
        exact (nodeCoveredBy_iff v (uiNodes g)).mp ((coveredNodesLoop_iff _ _).mp hn v hv)
      · intro e he
        exact (edgeCoveredBy_iff e (uiNodes g)).mp (h e he)
    · intro h e he
      exact (edgeCoveredBy_iff e (uiNodes g)).mpr (h.2 e he)
  · simp only [hn, if_false]
    constructor
    · intro h
      exact absurd h (by simp)
    · intro h
      exact absurd ((coveredNodesLoop_iff _ _).mpr
        (fun v hv => (nodeCoveredBy_iff v (uiNodes g)).mpr (h.1 v hv))) hn

/-- Overwriting a key and reading it back. -/
theorem mapSet_lookup_same (m : List (Nat × Nat)) (k v : Nat) :
    (mapSet m k v).lookup k = some v := by
  induction m with
  | nil => simp [mapSet, List.lookup]
  | cons p rest ih =>
    by_cases h : p.1 = k
    · simp [mapSet, h, List.lookup]
    · have : (k == p.1) = false := by
        simp
        exact fun he => h he.symm
      simp [mapSet, h, List.lookup, this, ih]

/-- Writing one node id's state and reading the same id back. -/
theorem sigGet_sigSet_same (s : List (Nat × NodeState)) (k : Nat) (v : NodeState) :
    sigGet (sigSet s k v) k = v := by
  induction s with
  | nil => simp [sigSet, sigGet, List.lookup]
  | cons p rest ih =>
    by_cases h : p.1 = k
    · simp [sigSet, h, sigGet, List.lookup]
    · have : (k == p.1) = false := by
        simp
        exact fun he => h he.symm
      simp [sigSet, h, sigGet, List.lookup, this]
      exact ih

/-- Writing one node id's state leaves every other id's state unchanged. -/
theorem sigGet_sigSet_ne (s : List (Nat × NodeState)) (k k' : Nat) (v : NodeState)
    (h : k' ≠ k) :
    sigGet (sigSet s k v) k' = sigGet s k' := by
  induction s with
  | nil =>
    have : (k' == k) = false := by simp; exact h
    simp [sigSet, sigGet, List.lookup, this]
  | cons p rest ih =>
    by_cases hp : p.1 = k
    · have : (k' == k) = false := by simp; exact h
      simp [sigSet, hp, sigGet, List.lookup, this]
    · by_cases hq : p.1 = k'
      · have : (k' == p.1) = true := by simp [hq]
        simp [sigSet, hp, sigGet, List.lookup, this]
      · have : (k' == p.1) = false := by
          simp
          exact fun he => hq he.symm
        simp [sigSet, hp, sigGet, List.lookup, this]
        exact ih

/-- A fold whose step fixes every list element is the identity. -/
theorem foldl_fixed {α β : Type} (f : β → α → β) (l : List α) (s : β)
    (h : ∀ b x, x ∈ l → f b x = b) : l.foldl f s = s := by
  induction l generalizing s with
  | nil => rfl
  | cons x rest ih =>
    rw [List.foldl_cons, h s x (by simp)]
    exact ih s (fun b y hy => h b y (by simp [hy]))

/-- An AddRealEdge iteration on an entry whose key id differs from the
source id leaves the state untouched. -/
theorem addRealEdgeStep_ne (source : Nat) (dest : DGNode) (s : Graph)
    (p : DGNode × List DGNode) (h : p.1.id ≠ source) :
    AddRealEdgeStep source dest s p = s := by
  simp [AddRealEdgeStep, h]

/-- Every AddRealEdge iteration leaves the topology untouched: the
source's k = append(k, dest) only rebinds the loop-local slice header. -/
theorem addRealEdgeStep_Top (source : Nat) (dest : DGNode) (s : Graph)
    (p : DGNode × List DGNode) :
    (AddRealEdgeStep source dest s p).Top = s.Top := by
  unfold AddRealEdgeStep
  dsimp only
  split
  · split
    · split <;> rfl
    · rfl
  · rfl

/-- Folding AddRealEdge iterations over any list never changes Top. -/
theorem addRealEdge_foldl_Top (source : Nat) (dest : DGNode) :
    ∀ (l : List (DGNode × List DGNode)) (s : Graph),
      (l.foldl (AddRealEdgeStep source dest) s).Top = s.Top := by
  intro l
  induction l with
  | nil => intro s; rfl
  | cons p rest ih =>
    intro s
    rw [List.foldl_cons, ih (AddRealEdgeStep source dest s p)]
    exact addRealEdgeStep_Top source dest s p

/-- AddRealEdge never changes the topology mapping. -/
theorem addRealEdge_Top (g : Graph) (source : Nat) (dest : DGNode) :
    (AddRealEdge g source dest).Top = g.Top :=
  addRealEdge_foldl_Top source dest g.Top g

/-- When the topology's key ids are pairwise distinct, AddRealEdge reduces
to its single iteration on the unique entry keyed by the source id. -/
theorem addRealEdge_eq_step (g : Graph) (source : Nat) (dest : DGNode)
    (i : DGNode) (k : List DGNode)
    (hmem : (i, k) ∈ g.Top)
    (hid : i.id = source)
    (huniq : (g.Top.map (fun p => p.1.id)).Nodup) :
    AddRealEdge g source dest = AddRealEdgeStep source dest g (i, k) := by
  obtain ⟨L1, L2, hsplit⟩ := List.append_of_mem hmem
  have hmap : (L1.map (fun p => p.1.id) ++
      i.id :: L2.map (fun p => p.1.id)).Nodup := by
    have := huniq
    rw [hsplit] at this
    simpa using this
  have h1 : ∀ p ∈ L1, p.1.id ≠ source := by
    intro p hp he
    have hmem1 : i.id ∈ L1.map (fun p => p.1.id) := by
      rw [← hid] at he
      exact List.mem_map.mpr ⟨p, hp, by rw [he, hid]⟩
    have hdisj := (List.nodup_append.mp hmap).2.2
    exact hdisj hmem1 (by simp)
  have h2 : ∀ p ∈ L2, p.1.id ≠ source := by
    intro p hp he
    have hnd2 := (List.nodup_append.mp hmap).2.1
    have : i.id ∉ L2.map (fun p => p.1.id) := by
      rw [List.nodup_cons] at hnd2
      exact hnd2.1
    exact this (List.mem_map.mpr ⟨p, hp, by rw [he, hid]⟩)
  unfold AddRealEdge
  rw [hsplit, List.foldl_append, List.foldl_cons]
  rw [foldl_fixed _ L1 g (fun b x hx => addRealEdgeStep_ne source dest b x (h1 x hx))]
  rw [foldl_fixed _ L2 _ (fun b x hx => addRealEdgeStep_ne source dest b x (h2 x hx))]

/-- The matched AddRealEdge iteration: when the edge is new, it installs
the fresh conduit in the destination's outbound map under the source id
and in the source node's inbound map under the destination id. -/
theorem addRealEdgeStep_install (g : Graph) (source : Nat) (dest : DGNode)
    (i : DGNode) (k : List DGNode)
    (hid : i.id = source)
    (hnew : containsDGNode k dest = false) :
    (sigGet (AddRealEdgeStep source dest g (i, k)).sig dest.id).signalers.lookup source =
      some g.fresh ∧
    (sigGet (AddRealEdgeStep source dest g (i, k)).sig source).signals.lookup dest.id =
      some g.fresh := by
  unfold AddRealEdgeStep
  simp only [hid, if_pos rfl, hnew, Bool.not_false, if_pos trivial]
  rw [sigGet_sigSet_same, mapSet_lookup_same]
  by_cases hsd : dest.id = source
  · rw [hsd]
    rw [sigGet_sigSet_same]
    constructor
    · rw [← hsd, sigGet_sigSet_same]
      exact mapSet_lookup_same _ _ _
    · exact mapSet_lookup_same _ _ _
  · constructor
    · rw [sigGet_sigSet_ne _ _ _ _ hsd, sigGet_sigSet_same]
      exact mapSet_lookup_same _ _ _
    · rw [sigGet_sigSet_same]
      exact mapSet_lookup_same _ _ _

/-- A conduit token is installed somewhere in the signaling state. -/
def ConduitIn (g : Graph) (c : Nat) : Prop :=
  ∃ p ∈ g.sig, (∃ q ∈ p.2.signalers, q.2 = c) ∨ ∃ q ∈ p.2.signals, q.2 = c

/-- Every installed conduit token is below the allocation counter (holds
for every state the operations produce from the empty graph). -/
def ConduitsBound (g : Graph) : Prop :=
  ∀ p ∈ g.sig, (∀ q ∈ p.2.signalers, q.2 < g.fresh) ∧ ∀ q ∈ p.2.signals, q.2 < g.fresh

instance (g : Graph) : Decidable (ConduitsBound g) := by
  unfold ConduitsBound
  infer_instance

/-- Under the bound, the next token is fresh: not yet installed anywhere. -/
theorem conduitsBound_fresh (g : Graph) (hb : ConduitsBound g) : ¬ ConduitIn g g.fresh := by
  rintro ⟨p, hp, hq⟩
  rcases hq with ⟨q, hq, he⟩ | ⟨q, hq, he⟩
  · exact absurd ((hb p hp).1 q hq) (by rw [he]; exact lt_irrefl _)
  · exact absurd ((hb p hp).2 q hq) (by rw [he]; exact lt_irrefl _)

/-- C2: AddRealEdge leaves the node-to-dependency-list mapping Top
observably unchanged - Dependencies returns the same list for every node
before and after - and it has no error result; yet, on the unique entry
keyed by the source id, it installs the fresh conduit (a token not yet
present in any signaling map) into the destination node's outbound map
under the source id and into the source node's inbound map under the
destination's id. -/
theorem c2_addRealEdge_frame_and_install (g : Graph) (source : Nat) (dest : DGNode)
    (i : DGNode) (k : List DGNode)
    (hmem : (i, k) ∈ g.Top)
    (hid : i.id = source)
    (huniq : (g.Top.map (fun p => p.1.id)).Nodup)
    (hnew : containsDGNode k dest = false)
    (hb : ConduitsBound g) :
    (AddRealEdge g source dest).Top = g.Top ∧
    (∀ np, Dependencies (AddRealEdge g source dest) np = Dependencies g np) ∧
    (sigGet (AddRealEdge g source dest).sig dest.id).signalers.lookup source = some g.fresh ∧
    (sigGet (AddRealEdge g source dest).sig source).signals.lookup dest.id = some g.fresh ∧
    ¬ ConduitIn g g.fresh := by
  have htop := addRealEdge_Top g source dest
  have hstep := addRealEdge_eq_step g source dest i k hmem hid huniq
  have hinst := addRealEdgeStep_install g source dest i k hid hnew
  refine ⟨htop, ?_, ?_, ?_, conduitsBound_fresh g hb⟩
  · intro np
    unfold Dependencies
    rw [htop]
  · rw [hstep]
    exact hinst.1
  · rw [hstep]
    exact hinst.2

/-- C2 witness: the frame and install conclusions at the concrete two-node
graph gAB with source id 1 and destination nB. -/
theorem c2_witness :
    (AddRealEdge gAB 1 nB).Top = gAB.Top ∧
    (sigGet (AddRealEdge gAB 1 nB).sig 2).signalers.lookup 1 = some gAB.fresh ∧
    (sigGet (AddRealEdge gAB 1 nB).sig 1).signals.lookup 2 = some gAB.fresh := by
  have h := c2_addRealEdge_frame_and_install gAB 1 nB nA [] (by decide) rfl (by decide)
    (by decide) (by decide)
  exact ⟨h.1, h.2.2.1, h.2.2.2.1⟩

/-- C10 (amended): AddRealEdge performs no self-dependency rejection: with
source n.id and destination n it completes without any error result,
leaves the topology unchanged, and installs the fresh conduit under n's
own id in both of n's signaling maps. -/
theorem c10_self_edge_behavior (g : Graph) (n : DGNode) (k : List DGNode)
    (hmem : (n, k) ∈ g.Top)
    (huniq : (g.Top.map (fun p => p.1.id)).Nodup)
    (hnew : containsDGNode k n = false) :
    (AddRealEdge g n.id n).Top = g.Top ∧
    (sigGet (AddRealEdge g n.id n).sig n.id).signalers.lookup n.id = some g.fresh ∧
    (sigGet (AddRealEdge g n.id n).sig n.id).signals.lookup n.id = some g.fresh := by
  have htop := addRealEdge_Top g n.id n
  have hstep := addRealEdge_eq_step g n.id n n k hmem rfl huniq
  have hinst := addRealEdgeStep_install g n.id n n k rfl hnew
  exact ⟨htop, by rw [hstep]; exact hinst.1, by rw [hstep]; exact hinst.2⟩


/-- Reading the successor position of a cons cell. -/
theorem get_cons_succ' (a : DGNode) (l : List DGNode) (k : Nat) (hk : k < l.length) :
    (a :: l).get ⟨k + 1, by simp; omega⟩ = l.get ⟨k, hk⟩ := by
  simp [List.get_eq_getElem]

/-- The inner TotalityUnique loop returns false exactly when the full UI
slice holds, at some position other than the outer one, a node not yet in
done that is deep-value equal to the outer node. -/
theorem tuInner_false_iff (n : DGNode) (i : Nat) :
    ∀ (M : List DGNode) (j₀ : Nat) (done : List DGNode),
      (tuInner n i j₀ M done = false ↔
        ∃ k, ∃ hk : k < M.length,
          M.get ⟨k, hk⟩ ∉ done ∧ j₀ + k ≠ i ∧ deepEqual n (M.get ⟨k, hk⟩) = true) := by
  intro M
  induction M with
  | nil =>
    intro j₀ done
    constructor
    · intro h
      exact absurd h (by simp [tuInner])
    · rintro ⟨k, hk, -⟩
      exact absurd hk (by simp)
  | cons n2 rest ih =>
    intro j₀ done
    have hmem : contains done n2 = true ↔ n2 ∈ done := by simp [contains]
    constructor
    · intro h
      by_cases hc : contains done n2 = true
      · have h' : tuInner n i (j₀ + 1) rest done = false := by
          simpa [tuInner, hc] using h
        obtain ⟨k, hk, h1, h2, h3⟩ := (ih (j₀ + 1) done).mp h'
        refine ⟨k + 1, by simp; omega, ?_, by omega, ?_⟩
        · rw [get_cons_succ' n2 rest k hk]
          exact h1
        · rw [get_cons_succ' n2 rest k hk]
          exact h3
      · by_cases hj : j₀ ≠ i
        · by_cases hd : deepEqual n n2 = true
          · refine ⟨0, by simp, ?_, by simpa using hj, by simpa using hd⟩
            simp only [List.get_eq_getElem, List.getElem_cons_zero]
            intro hin
            exact hc (hmem.mpr hin)
          · have h' : tuInner n i (j₀ + 1) rest done = false := by
              simpa [tuInner, hc, hj, hd] using h
            obtain ⟨k, hk, h1, h2, h3⟩ := (ih (j₀ + 1) done).mp h'
            refine ⟨k + 1, by simp; omega, ?_, by omega, ?_⟩
            · rw [get_cons_succ' n2 rest k hk]
              exact h1
            · rw [get_cons_succ' n2 rest k hk]
              exact h3
        · have h' : tuInner n i (j₀ + 1) rest done = false := by
            simpa [tuInner, hc, hj] using h
          obtain ⟨k, hk, h1, h2, h3⟩ := (ih (j₀ + 1) done).mp h'
          refine ⟨k + 1, by simp; omega, ?_, by omega, ?_⟩
          · rw [get_cons_succ' n2 rest k hk]
            exact h1
          · rw [get_cons_succ' n2 rest k hk]
            exact h3
    · rintro ⟨k, hk, h1, h2, h3⟩
      match k, hk with
      | 0, hk =>
        simp only [List.get_eq_getElem, List.getElem_cons_zero] at h1 h3
        have hc : contains done n2 = false := by
          rw [← Bool.not_eq_true]
          intro hcc
          exact h1 (hmem.mp hcc)
        have hj : j₀ ≠ i := by omega
        simp [tuInner, hc, hj, h3]
      | k + 1, hk =>
        have hk' : k < rest.length := by simp at hk; omega
        have h1' : rest.get ⟨k, hk'⟩ ∉ done := by
          rw [← get_cons_succ' n2 rest k hk']
          exact h1
        have h3' : deepEqual n (rest.get ⟨k, hk'⟩) = true := by
          rw [← get_cons_succ' n2 rest k hk']
          exact h3
        have hrec : tuInner n i (j₀ + 1) rest done = false :=
          (ih (j₀ + 1) done).mpr ⟨k, hk', h1', by omega, h3'⟩
        by_cases hc : contains done n2 = true
        · simp [tuInner, hc, hrec]
        · by_cases hj : j₀ ≠ i
          · by_cases hd : deepEqual n n2 = true
            · simp [tuInner, hc, hj, hd]
            · simp [tuInner, hc, hj, hd, hrec]
          · simp [tuInner, hc, hj, hrec]


/-- deepEqual is symmetric. -/
theorem deepEqual_symm (n m : DGNode) : deepEqual n m = deepEqual m n := by
  unfold deepEqual
  rw [Bool.eq_iff_iff]
  simp only [Bool.and_eq_true, beq_iff_eq]
  constructor
  · rintro ⟨⟨⟨⟨⟨⟨h1, h2⟩, h3⟩, h4⟩, h5⟩, h6⟩, h7⟩
    exact ⟨⟨⟨⟨⟨⟨h1.symm, h2.symm⟩, h3.symm⟩, h4.symm⟩, h5.symm⟩, h6.symm⟩, h7.symm⟩
  · rintro ⟨⟨⟨⟨⟨⟨h1, h2⟩, h3⟩, h4⟩, h5⟩, h6⟩, h7⟩
    exact ⟨⟨⟨⟨⟨⟨h1.symm, h2.symm⟩, h3.symm⟩, h4.symm⟩, h5.symm⟩, h6.symm⟩, h7.symm⟩

/-- In a nodup list, the k-th element lies in the m-prefix iff k < m. -/
theorem get_mem_take_iff (l : List DGNode) (hnd : l.Nodup) (k : Nat) (hk : k < l.length)
    (m : Nat) : l.get ⟨k, hk⟩ ∈ l.take m ↔ k < m := by
  constructor
  · intro hmemk
    obtain ⟨k2, hk2⟩ := List.mem_iff_get.mp hmemk
    have hlen : k2.1 < min m l.length := by
      have := k2.2
      simpa [List.length_take] using this
    have heq : (l.take m).get k2 = l.get ⟨k2.1, by omega⟩ := by
      rw [List.get_eq_getElem, List.get_eq_getElem, List.getElem_take]
    rw [heq] at hk2
    have hv : k2.1 = k := congrArg Fin.val (hnd.get_inj_iff.mp hk2)
    omega
  · intro hlt
    have hlen : k < (l.take m).length := by
      rw [List.length_take]
      omega
    have heq : (l.take m).get ⟨k, hlen⟩ = l.get ⟨k, hk⟩ := by
      rw [List.get_eq_getElem, List.get_eq_getElem, List.getElem_take]
    rw [← heq]
    exact List.get_mem _ _ _

/-- The outer TotalityUnique loop, resumed at index i0 with the first i0
nodes marked done, returns false exactly when some later position pairs
with a strictly greater position into a deep-value-equal pair. -/
theorem tuOuter_false_iff (L : List DGNode) (hnd : L.Nodup) :
    ∀ (M : List DGNode) (i0 : Nat), L.drop i0 = M →
      (tuOuter L i0 M (L.take i0) = false ↔
        ∃ k j, ∃ hk : k < L.length, ∃ hj : j < L.length, i0 ≤ k ∧ k < j ∧
          deepEqual (L.get ⟨k, hk⟩) (L.get ⟨j, hj⟩) = true) := by
  intro M
  induction M with
  | nil =>
    intro i0 hdrop
    have hlen : L.length ≤ i0 := List.drop_eq_nil_iff.mp hdrop
    constructor
    · intro h
      exact absurd h (by simp [tuOuter])
    · rintro ⟨k, j, hk, hj, hik, hkj, -⟩
      omega
  | cons n rest ih =>
    intro i0 hdrop
    have hi0 : i0 < L.length := by
      by_contra hge
      rw [List.drop_eq_nil_iff.mpr (by omega)] at hdrop
      exact List.noConfusion hdrop
    have hsplit := hdrop
    rw [List.drop_eq_getElem_cons hi0] at hsplit
    injection hsplit with hhead htail
    have hgetn : L.get ⟨i0, hi0⟩ = n := by
      rw [List.get_eq_getElem]
      exact hhead
    have htake : L.take i0 ++ [n] = L.take (i0 + 1) := by
      have hc := List.take_concat_get L i0 hi0
      rw [List.concat_eq_append] at hc
      rw [← hgetn, List.get_eq_getElem]
      exact hc
    have hunf : tuOuter L i0 (n :: rest) (L.take i0) =
        if tuInner n i0 0 L (L.take i0) then tuOuter L (i0 + 1) rest (L.take i0 ++ [n])
        else false := rfl
    by_cases hinner : tuInner n i0 0 L (L.take i0) = true
    · rw [hunf, if_pos hinner, htake, ih (i0 + 1) htail]
      constructor
      · rintro ⟨k, j, hk, hj, hik, hkj, hd⟩
        exact ⟨k, j, hk, hj, by omega, hkj, hd⟩
      · rintro ⟨k, j, hk, hj, hik, hkj, hd⟩
        by_cases hki : k = i0
        · exfalso
          have hfalse : tuInner n i0 0 L (L.take i0) = false := by
            apply (tuInner_false_iff n i0 L 0 (L.take i0)).mpr
            refine ⟨j, hj, ?_, by omega, ?_⟩
            · rw [get_mem_take_iff L hnd j hj i0]
              omega
            · subst hki
              rw [hgetn] at hd
              exact hd
          rw [hfalse] at hinner
          exact Bool.noConfusion hinner
        · exact ⟨k, j, hk, hj, by omega, hkj, hd⟩
    · have hif : tuInner n i0 0 L (L.take i0) = false := by
        rw [← Bool.not_eq_true]
        exact hinner
      rw [hunf, hif]
      simp only [Bool.false_eq_true, if_false, true_iff]
      obtain ⟨j, hj, h1, h2, h3⟩ := (tuInner_false_iff n i0 L 0 (L.take i0)).mp hif
      have hji : i0 ≤ j := by
        by_contra hlt
        exact h1 ((get_mem_take_iff L hnd j hj i0).mpr (by omega))
      refine ⟨i0, j, hi0, hj, by omega, by omega, ?_⟩
      rw [hgetn]
      exact h3

/-- C8: TotalityUnique returns false exactly when the topology holds two
distinct UI-kind nodes that are deep-value equal, and true when the UI
nodes are pairwise structurally distinct - in particular for a topology
with zero UI nodes the right-hand side is empty and the check passes. -/
theorem c8_totalityUnique_iff (g : Graph) (hnd : (topKeys g.Top).Nodup) :
    TotalityUnique g = false ↔
      ∃ n m, n ∈ uiNodes g ∧ m ∈ uiNodes g ∧ n ≠ m ∧ deepEqual n m = true := by
  have hndui : (uiNodes g).Nodup := hnd.filter _
  have h := tuOuter_false_iff (uiNodes g) hndui (uiNodes g) 0 (List.drop_zero _)
  rw [List.take_zero] at h
  unfold TotalityUnique
  rw [h]
  constructor
  · rintro ⟨k, j, hk, hj, -, hkj, hd⟩
    refine ⟨(uiNodes g).get ⟨k, hk⟩, (uiNodes g).get ⟨j, hj⟩,
      List.get_mem _ _ _, List.get_mem _ _ _, ?_, hd⟩
    intro he
    have hfe := hndui.get_inj_iff.mp he
    have : k = j := congrArg Fin.val hfe
    omega
  · rintro ⟨n, m, hn, hm, hne, hd⟩
    obtain ⟨kn, hkn⟩ := List.mem_iff_get.mp hn
    obtain ⟨km, hkm⟩ := List.mem_iff_get.mp hm
    have hnekm : kn.1 ≠ km.1 := by
      intro he
      exact hne (by rw [← hkn, ← hkm]; exact congrArg _ (Fin.ext he))
    rcases Nat.lt_or_ge kn.1 km.1 with hlt | hge
    · refine ⟨kn.1, km.1, kn.2, km.2, Nat.zero_le _, hlt, ?_⟩
      rw [Fin.eta, Fin.eta, hkn, hkm]
      exact hd
    · refine ⟨km.1, kn.1, km.2, kn.2, Nat.zero_le _, by omega, ?_⟩
      rw [Fin.eta, Fin.eta, hkn, hkm]
      rw [deepEqual_symm]
      exact hd

/-- C8 witness: the equivalence applied to the concrete topology holding
the two distinct, deep-value-equal UI nodes nA7 and nB7. -/
theorem c8_witness :
    (topKeys gU7.Top).Nodup ∧ TotalityUnique gU7 = false :=
  ⟨by decide,
   (c8_totalityUnique_iff gU7 (by decide)).mpr
     ⟨nA7, nB7, by decide, by decide, by decide, by decide⟩⟩

/-- C10 witness: the self-edge behavior at the concrete one-node graph. -/
theorem c10_witness :
    (AddRealEdge gA 1 nA).Top = gA.Top ∧
    (sigGet (AddRealEdge gA 1 nA).sig 1).signalers.lookup 1 = some gA.fresh := by
  have h := c10_self_edge_behavior gA nA [] (by decide) (by decide) (by decide)
  exact ⟨h.1, h.2.1⟩

/-- Bridge between the contains helper and membership. -/
theorem contains_iff (l : List DGNode) (n : DGNode) : contains l n = true ↔ n ∈ l := by
  simp [contains]

/-- Bridge between a false contains result and non-membership. -/
theorem contains_false_iff (l : List DGNode) (n : DGNode) : contains l n = false ↔ n ∉ l := by
  simp [contains]

/-- Unfolding equation of cycleDfs at positive fuel. -/
theorem cycleDfs_succ (g : Graph) (fuel : Nat) (start : DGNode) (seen done : List DGNode) :
    cycleDfs g (fuel + 1) start seen done =
      match cycleDfsLoop (cycleDfs g fuel) (seen ++ [start]) (topApply g.Top start) done with
      | some r => r
      | none => (false, done ++ [start]) := rfl

/-- Unfolding equation of the CycleDetect outer scan at a cons cell. -/
theorem CycleDetectGo_cons (g : Graph) (i : DGNode) (rest done : List DGNode) :
    CycleDetectGo g (i :: rest) done =
      if contains done i then CycleDetectGo g rest done
      else
        match cycleDfs g (dfsFuel g) i [] done with
        | (true, _) => true
        | (false, d) => CycleDetectGo g rest d := rfl

/-- Reachability in the dependency relation. -/
def Reach (g : Graph) : DGNode → DGNode → Prop :=
  Relation.ReflTransGen (edgeRel g)

/-- The node lies on some directed cycle. -/
def OnCycle (g : Graph) (x : DGNode) : Prop :=
  ∃ l, List.Chain (edgeRel g) x (l ++ [x])

/-- No node reachable from x (x included) lies on a cycle. -/
def Safe (g : Graph) (x : DGNode) : Prop :=
  ∀ y, Reach g x y → ¬ OnCycle g y

/-- A chain is a reflexive-transitive path to its last node. -/
theorem reach_of_chain (g : Graph) :
    ∀ (l : List DGNode) (a b : DGNode), List.Chain (edgeRel g) a l →
      (a :: l).getLast? = some b → Reach g a b := by
  intro l
  induction l with
  | nil =>
    intro a b hch hlast
    simp at hlast
    rw [hlast]
    exact Relation.ReflTransGen.refl
  | cons c t ih =>
    intro a b hch hlast
    rcases List.chain_cons.mp hch with ⟨hac, hct⟩
    rw [List.getLast?_cons_cons] at hlast
    exact Relation.ReflTransGen.head hac (ih c b hct hlast)

/-- Appending one more edge to the end of a chain. -/
theorem chain_snoc (g : Graph) :
    ∀ (l : List DGNode) (a b st : DGNode), List.Chain (edgeRel g) a l →
      (a :: l).getLast? = some st → edgeRel g st b →
      List.Chain (edgeRel g) a (l ++ [b]) := by
  intro l
  induction l with
  | nil =>
    intro a b st hch hlast he
    simp at hlast
    rw [← hlast] at he
    exact List.chain_cons.mpr ⟨he, List.Chain.nil⟩
  | cons c t ih =>
    intro a b st hch hlast he
    rcases List.chain_cons.mp hch with ⟨hac, hct⟩
    rw [List.getLast?_cons_cons] at hlast
    exact List.chain_cons.mpr ⟨hac, ih c b st hct hlast he⟩

/-- A neighbour revisited on the current path closes a directed cycle. -/
theorem cycle_of_revisit (g : Graph) (l : List DGNode) (st v : DGNode)
    (hch : List.Chain' (edgeRel g) l) (hlast : l.getLast? = some st) (hv : v ∈ l)
    (he : edgeRel g st v) : HasCycle g := by
  obtain ⟨l1, l2, rfl⟩ := List.append_of_mem hv
  have hch2 : List.Chain' (edgeRel g) (v :: l2) :=
    (List.chain'_append.mp hch).2.1
  have hchain : List.Chain (edgeRel g) v l2 := hch2
  have hlast2 : (v :: l2).getLast? = some st := by
    rw [List.getLast?_append_cons] at hlast
    exact hlast
  exact ⟨v, l2, chain_snoc g l2 v v st hchain hlast2 he⟩

/-- Soundness of the inner loop: a some result (which only true branches
produce) implies a cycle, given the current path is a chain ending at the
loop's owner and the neighbours are its adjacency. -/
theorem cycleDfsLoop_sound (g : Graph)
    (dfsf : DGNode → List DGNode → List DGNode → Bool × List DGNode)
    (st : DGNode) (seen2 : List DGNode)
    (hch : List.Chain' (edgeRel g) seen2)
    (hlast : seen2.getLast? = some st)
    (hdfs : ∀ v done2, edgeRel g st v → (dfsf v seen2 done2).1 = true → HasCycle g) :
    ∀ (adj done : List DGNode), (∀ v ∈ adj, edgeRel g st v) →
      ∀ r, cycleDfsLoop dfsf seen2 adj done = some r → HasCycle g := by
  intro adj
  induction adj with
  | nil =>
    intro done hadj r hr
    exact absurd hr (by simp [cycleDfsLoop])
  | cons v rest ih =>
    intro done hadj r hr
    by_cases hc : contains done v = true
    · rw [show cycleDfsLoop dfsf seen2 (v :: rest) done =
          cycleDfsLoop dfsf seen2 rest done by simp [cycleDfsLoop, hc]] at hr
      exact ih done (fun w hw => hadj w (by simp [hw])) r hr
    · rw [Bool.not_eq_true] at hc
      by_cases hs : contains seen2 v = true
      · exact cycle_of_revisit g seen2 st v hch hlast
          ((contains_iff seen2 v).mp hs) (hadj v (by simp))
      · rw [Bool.not_eq_true] at hs
        cases hd : dfsf v seen2 done with
        | mk b d =>
          cases b with
          | true =>
            exact hdfs v done (hadj v (by simp)) (by rw [hd])
          | false =>
            rw [show cycleDfsLoop dfsf seen2 (v :: rest) done =
                cycleDfsLoop dfsf seen2 rest done by
              simp [cycleDfsLoop, hc, hs, hd]] at hr
            exact ih done (fun w hw => hadj w (by simp [hw])) r hr

/-- Soundness of the depth-first search: a true result implies a cycle,
given the path including the current node is an edge chain. -/
theorem cycleDfs_sound (g : Graph) :
    ∀ (fuel : Nat) (start : DGNode) (seen done : List DGNode),
      List.Chain' (edgeRel g) (seen ++ [start]) →
      (cycleDfs g fuel start seen done).1 = true → HasCycle g := by
  intro fuel
  induction fuel with
  | zero =>
    intro start seen done hch h
    exact absurd h (by simp [cycleDfs])
  | succ fuel ih =>
    intro start seen done hch h
    rw [cycleDfs_succ] at h
    cases hloop : cycleDfsLoop (cycleDfs g fuel) (seen ++ [start]) (topApply g.Top start) done with
    | none =>
      rw [hloop] at h
      simp at h
    | some r =>
      refine cycleDfsLoop_sound g (cycleDfs g fuel) start (seen ++ [start]) hch
        (List.getLast?_concat seen) ?_ (topApply g.Top start) done (fun v hv => hv) r hloop
      intro v done2 he hv
      refine ih v (seen ++ [start]) done2 ?_ hv
      refine List.chain'_append.mpr ⟨hch, List.chain'_singleton v, ?_⟩
      intro x hx y hy
      rw [List.getLast?_concat] at hx
      simp at hx hy
      rw [← hx, ← hy]
      exact he

/-- Soundness of the outer scan: a true CycleDetect result implies a
directed cycle in the topology. -/
theorem CycleDetectGo_sound (g : Graph) :
    ∀ (roots done : List DGNode), CycleDetectGo g roots done = true → HasCycle g := by
  intro roots
  induction roots with
  | nil =>
    intro done h
    exact absurd h (by simp [CycleDetectGo])
  | cons i rest ih =>
    intro done h
    rw [CycleDetectGo_cons] at h
    by_cases hc : contains done i = true
    · rw [if_pos hc] at h
      exact ih done h
    · rw [Bool.not_eq_true] at hc
      rw [hc] at h
      simp only [Bool.false_eq_true, if_false] at h
      cases hd : cycleDfs g (dfsFuel g) i [] done with
      | mk b d =>
        cases b with
        | true =>
          exact cycleDfs_sound g (dfsFuel g) i [] done (by simp) (by rw [hd])
        | false =>
          rw [hd] at h
          exact ih d (by simpa using h)

/-- A successful association-list lookup means the key is a topology key. -/
theorem mem_topKeys_of_lookup :
    ∀ (l : List (DGNode × List DGNode)) (x : DGNode) (v : List DGNode),
      l.lookup x = some v → x ∈ topKeys l := by
  intro l
  induction l with
  | nil =>
    intro x v h
    exact absurd h (by simp [List.lookup])
  | cons p rest ih =>
    intro x v h
    by_cases hk : x = p.1
    · simp [topKeys, hk]
    · have hbeq : (x == p.1) = false := by
        simp
        exact hk
      rw [show List.lookup x (p :: rest) = List.lookup x rest by
        cases p with
        | mk a b => simp [List.lookup, hbeq]] at h
      have := ih x v h
      simp [topKeys] at this ⊢
      exact Or.inr this

/-- A successful association-list lookup returns one of the stored
dependency lists. -/
theorem mem_snd_of_lookup :
    ∀ (l : List (DGNode × List DGNode)) (x : DGNode) (v : List DGNode),
      l.lookup x = some v → v ∈ l.map Prod.snd := by
  intro l
  induction l with
  | nil =>
    intro x v h
    exact absurd h (by simp [List.lookup])
  | cons p rest ih =>
    intro x v h
    by_cases hk : x = p.1
    · have hbeq : (x == p.1) = true := by simp [hk]
      rw [show List.lookup x (p :: rest) = some p.2 by
        cases p with
        | mk a b => simp [List.lookup, hbeq]] at h
      simp at h
      simp [← h]
    · have hbeq : (x == p.1) = false := by
        simp
        exact hk
      rw [show List.lookup x (p :: rest) = List.lookup x rest by
        cases p with
        | mk a b => simp [List.lookup, hbeq]] at h
      simp
      exact Or.inr (by simpa using ih x v h)

/-- The source of any dependency edge is a topology key. -/
theorem edgeRel_mem_keys (g : Graph) (x y : DGNode) (h : edgeRel g x y) :
    x ∈ topKeys g.Top := by
  unfold edgeRel topApply at h
  cases hl : g.Top.lookup x with
  | none =>
    rw [hl] at h
    simp at h
  | some v => exact mem_topKeys_of_lookup g.Top x v hl

/-- The target of any dependency edge lies in the node universe. -/
theorem edgeRel_mem_univ (g : Graph) (x y : DGNode) (h : edgeRel g x y) :
    y ∈ nodeUniverse g := by
  unfold edgeRel topApply at h
  cases hl : g.Top.lookup x with
  | none =>
    rw [hl] at h
    simp at h
  | some v =>
    rw [hl] at h
    simp at h
    unfold nodeUniverse
    exact List.mem_append_right _
      (List.mem_flatten.mpr ⟨v, mem_snd_of_lookup g.Top x v hl, h⟩)

/-- A node all of whose direct dependencies are safe is itself safe. -/
theorem safe_of_adj (g : Graph) (x : DGNode)
    (hadj : ∀ v, edgeRel g x v → Safe g v) : Safe g x := by
  intro y hreach hcyc
  rcases Relation.ReflTransGen.cases_head hreach with heq | ⟨v, hxv, hvy⟩
  · subst heq
    obtain ⟨l, hch⟩ := hcyc
    have hcyc2 : OnCycle g x := ⟨l, hch⟩
    obtain ⟨hd, t, ht⟩ : ∃ hd t, l ++ [x] = hd :: t := by
      cases l with
      | nil => exact ⟨x, [], rfl⟩
      | cons c l2 => exact ⟨c, l2 ++ [x], rfl⟩
    have hch2 := hch
    rw [ht] at hch2
    rcases List.chain_cons.mp hch2 with ⟨hxh, hht⟩
    have hlast : (hd :: t).getLast? = some x := by
      rw [← ht]
      exact List.getLast?_concat l
    exact hadj hd hxh x (reach_of_chain g t hd x hht hlast) hcyc2
  · exact hadj v hxv y hvy hcyc

/-- A nodup list included in another list is no longer than it. -/
theorem nodup_length_le (l l2 : List DGNode) (hnd : l.Nodup)
    (hsub : ∀ x ∈ l, x ∈ l2) : l.length ≤ l2.length := by
  have h1 : l.toFinset.card = l.length := List.toFinset_card_of_nodup hnd
  have h2 : l.toFinset ⊆ l2.toFinset := by
    intro a ha
    rw [List.mem_toFinset] at ha ⊢
    exact hsub a ha
  have h3 := Finset.card_le_card h2
  have h4 := List.toFinset_card_le l2
  omega

/-- Completeness of the inner loop: when every recursive search on a fresh
neighbour either certifies safety (returning false with its owner appended
to done) or reports a cycle, the loop either finishes with no report and
all neighbours safe, or reports a cycle. -/
theorem cycleDfsLoop_complete (g : Graph)
    (dfsf : DGNode → List DGNode → List DGNode → Bool × List DGNode) (seen2 : List DGNode) :
    ∀ (adj done : List DGNode),
      (∀ v ∈ adj, contains done v = false → contains seen2 v = false →
        (dfsf v seen2 done = (false, done ++ [v]) ∧ Safe g v) ∨ (dfsf v seen2 done).1 = true) →
      (∀ d ∈ done, Safe g d) →
      (cycleDfsLoop dfsf seen2 adj done = none ∧ ∀ v ∈ adj, Safe g v) ∨
      (∃ d2, cycleDfsLoop dfsf seen2 adj done = some (true, d2)) := by
  intro adj
  induction adj with
  | nil =>
    intro done hdfs hdone
    left
    exact ⟨rfl, by simp⟩
  | cons v rest ih =>
    intro done hdfs hdone
    by_cases hc : contains done v = true
    · have hsv : Safe g v := hdone v ((contains_iff done v).mp hc)
      have hunf : cycleDfsLoop dfsf seen2 (v :: rest) done =
          cycleDfsLoop dfsf seen2 rest done := by
        simp [cycleDfsLoop, hc]
      rcases ih done (fun w hw hw1 hw2 => hdfs w (by simp [hw]) hw1 hw2) hdone with
        ⟨hn, hsl⟩ | ⟨d2, hs2⟩
      · left
        rw [hunf]
        refine ⟨hn, ?_⟩
        intro w hw
        rcases List.mem_cons.mp hw with rfl | hw2
        · exact hsv
        · exact hsl w hw2
      · right
        rw [hunf]
        exact ⟨d2, hs2⟩
    · rw [Bool.not_eq_true] at hc
      by_cases hs : contains seen2 v = true
      · right
        refine ⟨done, ?_⟩
        simp [cycleDfsLoop, hc, hs]
      · rw [Bool.not_eq_true] at hs
        rcases hdfs v (by simp) hc hs with ⟨heq, hsafe⟩ | htrue
        · have hunf : cycleDfsLoop dfsf seen2 (v :: rest) done =
              cycleDfsLoop dfsf seen2 rest done := by
            simp [cycleDfsLoop, hc, hs, heq]
          rcases ih done (fun w hw hw1 hw2 => hdfs w (by simp [hw]) hw1 hw2) hdone with
            ⟨hn, hsl⟩ | ⟨d2, hs2⟩
          · left
            rw [hunf]
            refine ⟨hn, ?_⟩
            intro w hw
            rcases List.mem_cons.mp hw with rfl | hw2
            · exact hsafe
            · exact hsl w hw2
          · right
            rw [hunf]
            exact ⟨d2, hs2⟩
        · right
          cases hd : dfsf v seen2 done with
          | mk b d =>
            rw [hd] at htrue
            simp at htrue
            subst htrue
            refine ⟨d, ?_⟩
            simp [cycleDfsLoop, hc, hs, hd]

/-- Completeness of the search: with enough fuel, a nodup current path
inside the node universe, and a done list of safe nodes, the search either
returns false (appending its start to done) with the start provably safe,
or reports a cycle. -/
theorem cycleDfs_complete (g : Graph) :
    ∀ (fuel : Nat) (start : DGNode) (seen done : List DGNode),
      seen.Nodup → (∀ x ∈ seen, x ∈ nodeUniverse g) → start ∈ nodeUniverse g →
      start ∉ seen →
      (nodeUniverse g).length + 1 ≤ fuel + (seen.length + 1) →
      (∀ d ∈ done, Safe g d) →
      (cycleDfs g fuel start seen done = (false, done ++ [start]) ∧ Safe g start) ∨
      (cycleDfs g fuel start seen done).1 = true := by
  intro fuel
  induction fuel with
  | zero =>
    intro start seen done hnd hsub hsu hns hfuel hdone
    exfalso
    have hsubc : ∀ x ∈ start :: seen, x ∈ nodeUniverse g := by
      intro x hx
      rcases List.mem_cons.mp hx with rfl | hx2
      · exact hsu
      · exact hsub x hx2
    have hndc : (start :: seen).Nodup := by
      rw [List.nodup_cons]
      exact ⟨hns, hnd⟩
    have hlen := nodup_length_le (start :: seen) (nodeUniverse g) hndc hsubc
    simp at hlen
    omega
  | succ fuel ih =>
    intro start seen done hnd hsub hsu hns hfuel hdone
    have hdfs : ∀ v ∈ topApply g.Top start, contains done v = false →
        contains (seen ++ [start]) v = false →
        (cycleDfs g fuel v (seen ++ [start]) done = (false, done ++ [v]) ∧ Safe g v) ∨
        (cycleDfs g fuel v (seen ++ [start]) done).1 = true := by
      intro v hv hvd hvs
      apply ih v (seen ++ [start]) done
      · rw [List.nodup_append]
        refine ⟨hnd, by simp, ?_⟩
        intro a ha
        simp
        intro hax
        rw [hax] at ha
        exact hns ha
      · intro x hx
        rcases List.mem_append.mp hx with hx1 | hx2
        · exact hsub x hx1
        · simp at hx2
          rw [hx2]
          exact hsu
      · exact edgeRel_mem_univ g start v hv
      · exact (contains_false_iff _ _).mp hvs
      · simp
        omega
      · exact hdone
    rcases cycleDfsLoop_complete g (cycleDfs g fuel) (seen ++ [start])
        (topApply g.Top start) done hdfs hdone with ⟨hnone, hall⟩ | ⟨d2, hsome⟩
    · left
      constructor
      · rw [cycleDfs_succ, hnone]
      · exact safe_of_adj g start (fun v hv => hall v hv)
    · right
      rw [cycleDfs_succ, hsome]

/-- Completeness of the outer scan: when the scan returns false, every
scanned topology key is safe. -/
theorem CycleDetectGo_complete (g : Graph) :
    ∀ (roots done : List DGNode),
      (∀ i ∈ roots, i ∈ topKeys g.Top) →
      (∀ d ∈ done, Safe g d) →
      CycleDetectGo g roots done = false →
      ∀ i ∈ roots, Safe g i := by
  intro roots
  induction roots with
  | nil =>
    intro done hkeys hdone h i hi
    exact absurd hi (by simp)
  | cons i rest ih =>
    intro done hkeys hdone h j hj
    rw [CycleDetectGo_cons] at h
    by_cases hc : contains done i = true
    · rw [if_pos hc] at h
      rcases List.mem_cons.mp hj with rfl | hj2
      · exact hdone j ((contains_iff done j).mp hc)
      · exact ih done (fun w hw => hkeys w (by simp [hw])) hdone h j hj2
    · rw [Bool.not_eq_true] at hc
      rw [hc] at h
      simp only [Bool.false_eq_true, if_false] at h
      have hmemu : i ∈ nodeUniverse g := by
        unfold nodeUniverse
        exact List.mem_append_left _ (hkeys i (by simp))
      rcases cycleDfs_complete g (dfsFuel g) i [] done (by simp) (by simp) hmemu
        (by simp) (by unfold dfsFuel; simp only [List.length_nil]; omega) hdone with
        ⟨heq, hsafei⟩ | htrue
      · rw [heq] at h
        have h2 : CycleDetectGo g rest (done ++ [i]) = false := h
        rcases List.mem_cons.mp hj with rfl | hj2
        · exact hsafei
        · refine ih (done ++ [i]) (fun w hw => hkeys w (by simp [hw])) ?_ h2 j hj2
          intro d hd
          rcases List.mem_append.mp hd with hd1 | hd2
          · exact hdone d hd1
          · simp at hd2
            rw [hd2]
            exact hsafei
      · exfalso
        cases hd : cycleDfs g (dfsFuel g) i [] done with
        | mk b d =>
          rw [hd] at htrue h
          simp at htrue
          subst htrue
          simp at h

/-- If every topology key is safe there is no directed cycle. -/
theorem not_hasCycle_of_allSafe (g : Graph) (hall : ∀ i ∈ topKeys g.Top, Safe g i) :
    ¬ HasCycle g := by
  rintro ⟨a, l, hch⟩
  obtain ⟨hd, t, ht⟩ : ∃ hd t, l ++ [a] = hd :: t := by
    cases l with
    | nil => exact ⟨a, [], rfl⟩
    | cons c l2 => exact ⟨c, l2 ++ [a], rfl⟩
  have hch2 := hch
  rw [ht] at hch2
  rcases List.chain_cons.mp hch2 with ⟨hah, -⟩
  exact hall a (edgeRel_mem_keys g a hd hah) a Relation.ReflTransGen.refl ⟨l, hch⟩

/-- C4 (amended): CycleDetect returns true exactly when the dependency
relation stored in Top contains a directed cycle; the scan starts a search
from every topology key not yet fully processed, so a cycle is reported
even when it is unreachable from an arbitrarily chosen start node.  (The
claim's further assertion that each node is visited exactly once across
the scan is refuted by the separate counterexample.) -/
theorem c4_cycleDetect_iff_hasCycle (g : Graph) :
    CycleDetect g = true ↔ HasCycle g := by
  constructor
  · intro h
    exact CycleDetectGo_sound g (topKeys g.Top) [] h
  · intro hcyc
    by_contra hne
    have hfalse : CycleDetect g = false := by
      cases hb : CycleDetect g
      · rfl
      · exact absurd hb hne
    have hall := CycleDetectGo_complete g (topKeys g.Top) [] (fun i hi => hi) (by simp) hfalse
    exact not_hasCycle_of_allSafe g hall hcyc

/-- The instrumented inner loop computes the same result as the real one,
provided the supplied recursive calls agree. -/
theorem cycleDfsLoopV_fst
    (dfsf : DGNode → List DGNode → List DGNode → Bool × List DGNode)
    (dfsfV : DGNode → List DGNode → List DGNode → (Bool × List DGNode) × List DGNode)
    (seen2 : List DGNode)
    (hdf : ∀ v s d, (dfsfV v s d).1 = dfsf v s d) :
    ∀ (adj done : List DGNode),
      (cycleDfsLoopV dfsfV seen2 adj done).1 = cycleDfsLoop dfsf seen2 adj done := by
  intro adj
  induction adj with
  | nil => intro done; rfl
  | cons v rest ih =>
    intro done
    by_cases hc : contains done v = true
    · simp [cycleDfsLoopV, cycleDfsLoop, hc, ih done]
    · rw [Bool.not_eq_true] at hc
      by_cases hs : contains seen2 v = true
      · simp [cycleDfsLoopV, cycleDfsLoop, hc, hs]
      · rw [Bool.not_eq_true] at hs
        cases hv : dfsfV v seen2 done with
        | mk r vs =>
          cases r with
          | mk b d =>
            have hreal : dfsf v seen2 done = (b, d) := by
              rw [← hdf v seen2 done, hv]
            cases b with
            | true => simp [cycleDfsLoopV, cycleDfsLoop, hc, hs, hv, hreal]
            | false => simp [cycleDfsLoopV, cycleDfsLoop, hc, hs, hv, hreal, ih done]

/-- The instrumented search computes the same result as cycleDfs. -/
theorem cycleDfsV_fst (g : Graph) :
    ∀ (fuel : Nat) (start : DGNode) (seen done : List DGNode),
      (cycleDfsV g fuel start seen done).1 = cycleDfs g fuel start seen done := by
  intro fuel
  induction fuel with
  | zero => intro start seen done; rfl
  | succ fuel ih =>
    intro start seen done
    have htie := cycleDfsLoopV_fst (cycleDfs g fuel) (cycleDfsV g fuel) (seen ++ [start])
      (fun v s d => ih v s d) (topApply g.Top start) done
    rw [cycleDfs_succ]
    cases hl : cycleDfsLoopV (cycleDfsV g fuel) (seen ++ [start]) (topApply g.Top start) done with
    | mk o vs =>
      have hreal : cycleDfsLoop (cycleDfs g fuel) (seen ++ [start]) (topApply g.Top start) done
          = o := by
        rw [← htie, hl]
      rw [hreal]
      cases o with
      | none => simp [cycleDfsV, hl]
      | some r => simp [cycleDfsV, hl]

/-- The instrumented outer scan computes the same verdict as the real one. -/
theorem CycleDetectGoV_fst (g : Graph) :
    ∀ (roots done : List DGNode),
      (CycleDetectGoV g roots done).1 = CycleDetectGo g roots done := by
  intro roots
  induction roots with
  | nil => intro done; rfl
  | cons i rest ih =>
    intro done
    by_cases hc : contains done i = true
    · simp [CycleDetectGoV, CycleDetectGo_cons, hc, ih done]
    · rw [Bool.not_eq_true] at hc
      cases hv : cycleDfsV g (dfsFuel g) i [] done with
      | mk r vs =>
        cases r with
        | mk b d =>
          have hreal : cycleDfs g (dfsFuel g) i [] done = (b, d) := by
            rw [← cycleDfsV_fst g (dfsFuel g) i [] done, hv]
          cases b with
          | true => simp [CycleDetectGoV, CycleDetectGo_cons, hc, hv, hreal]
          | false => simp [CycleDetectGoV, CycleDetectGo_cons, hc, hv, hreal, ih d]

/-- The visit-trace scan agrees with CycleDetect on its verdict. -/
theorem cycleDetectV_verdict (g : Graph) :
    (CycleDetectGoV g (topKeys g.Top) []).1 = CycleDetect g :=
  CycleDetectGoV_fst g (topKeys g.Top) []

end Fabric
